import Mathlib

/-
  Verification of the `inter` interval-arithmetic library.

  Shallow embedding of `src/rounding.rs`, `src/utils.rs` and `src/interval.rs`.
  The library is generic over a numeric type `T` with the Rust `PartialOrd`
  comparison and arithmetic whose results may depend on the ambient
  floating-point rounding-mode register.  We model:
    * the rounding register as an explicit `Int`-valued state threaded through
      every operation (only `fesetround` changes it);
    * the numeric type as a structure `Ops α` bundling the comparison
      (`partial_cmp`, an `Option Ordering`) and the arithmetic, the latter
      parametrised by the current register value;
    * Rust panics (the `assert!` in `with_range`) as `Option.none`.
-/

namespace Inter

/-- The four rounding modes of `src/rounding.rs` (`pub enum Rounding`). -/
inductive Rounding
  | toNearest
  | downward
  | upward
  | towardZero
deriving DecidableEq

/-- The discriminant value of each `Rounding` variant (`Rounding::ToNearest = 0x0000`, ...),
which is what `self as c_int` produces in `Rounding::set`/`Rounding::execute`. -/
def Rounding.code : Rounding → Int
  | .toNearest => 0x0000
  | .downward => 0x0400
  | .upward => 0x0800
  | .towardZero => 0x0C00

/-- The rounding-control register of the floating-point environment, holding a raw
platform code (`c_int`). -/
abbrev FE := Int

/-- Modelled from the spec: the platform primitive `fesetround` (declared
`extern` in `src/rounding.rs`, supplied by libc).  Per spec §4.1/§6/§7 it
applies the requested mode to the register and "reports non-zero/failure
status" on failure, i.e. it returns `0` exactly on success; the four variant
codes are the valid inputs.  It does not return the previous mode. -/
def fesetround (flag : Int) (s : FE) : Int × FE :=
  if flag = 0x0000 ∨ flag = 0x0400 ∨ flag = 0x0800 ∨ flag = 0x0C00 then
    (0, flag)
  else
    (1, s)

/-- Modelled from the spec: the platform primitive `fegetround` (declared
`extern` in `src/rounding.rs`), which returns the current register value. -/
def fegetround (s : FE) : Int × FE := (s, s)

/-- Model of `Rounding::execute` from `src/rounding.rs`:
```rust
pub fn execute<R, T: FnOnce() -> R>(self, func: T) -> R {
    let old = unsafe { fesetround(self as c_int) };
    let ret = func();
    unsafe { fesetround(old) };
    ret
}
```
Note that `old` is bound to the *return status* of `fesetround`, not to the
previously active mode. -/
def Rounding.execute {R : Type} (m : Rounding) (func : FE → R × FE) (s : FE) : R × FE :=
  let old := fesetround m.code s
  let ret := func old.2
  let fin := fesetround old.1 ret.2
  (ret.1, fin.2)

/-- The capabilities the library demands of the numeric type `T`:
the Rust `PartialOrd::partial_cmp`, the arithmetic operators (whose result may
depend on the current rounding register, hence the `FE` parameter), and the
conversion/constant operations used by `sin`
(`Zero::zero`, `one()`, `FromPrimitive::from_u64`, `from_isize(-1)`,
`Float::max`, `Float::min`). -/
structure Ops (α : Type) where
  cmp : α → α → Option Ordering
  add : FE → α → α → α
  sub : FE → α → α → α
  mul : FE → α → α → α
  div : FE → α → α → α
  neg : α → α
  zero : α
  one : α
  negOne : α
  fromNat : Nat → α
  fmax : α → α → α
  fmin : α → α → α

/-- Rust `a < b` for a `PartialOrd` type: `partial_cmp(a, b) == Some(Less)`. -/
def Ops.ltb {α : Type} (O : Ops α) (a b : α) : Bool :=
  O.cmp a b = some Ordering.lt

/-- Rust `a <= b`: `partial_cmp(a, b)` is `Some(Less)` or `Some(Equal)`. -/
def Ops.leb {α : Type} (O : Ops α) (a b : α) : Bool :=
  match O.cmp a b with
  | some Ordering.lt => true
  | some Ordering.eq => true
  | _ => false

/-- Rust `a > b`: `partial_cmp(a, b) == Some(Greater)`. -/
def Ops.gtb {α : Type} (O : Ops α) (a b : α) : Bool :=
  O.cmp a b = some Ordering.gt

/-- Rust `a >= b`: `partial_cmp(a, b)` is `Some(Greater)` or `Some(Equal)`. -/
def Ops.geb {α : Type} (O : Ops α) (a b : α) : Bool :=
  match O.cmp a b with
  | some Ordering.gt => true
  | some Ordering.eq => true
  | _ => false

/-- Rust `a == b` for a `PartialOrd` type, per the `PartialOrd` contract
`a == b ↔ partial_cmp(a, b) == Some(Equal)`. -/
def Ops.beq {α : Type} (O : Ops α) (a b : α) : Bool :=
  O.cmp a b = some Ordering.eq

/-- Model of `partial_min` from `src/utils.rs`: `if a <= b { a } else { b }`. -/
def pmin {α : Type} (O : Ops α) (a b : α) : α :=
  if O.leb a b then a else b

/-- Model of `partial_max` from `src/utils.rs`: `if a >= b { a } else { b }`. -/
def pmax {α : Type} (O : Ops α) (a b : α) : α :=
  if O.geb a b then a else b

/-- The `Interval<T>` struct of `src/interval.rs` (fields `start`, `end`;
the latter is `end_` here because `end` is reserved in Lean). -/
structure Interval (α : Type) where
  start : α
  end_ : α
deriving DecidableEq

/-- The data-model invariant (spec §3): `start <= end`. -/
def Interval.valid {α : Type} (O : Ops α) (i : Interval α) : Prop :=
  O.leb i.start i.end_ = true

instance {α : Type} (O : Ops α) (i : Interval α) : Decidable (Interval.valid O i) := by
  unfold Interval.valid; infer_instance

/-- Model of `Interval::with_range` from `src/interval.rs`:
`assert!(start <= end)` then build the struct.  The panic on a failed
assertion is modelled as `none`. -/
def Interval.with_range {α : Type} (O : Ops α) (start end_ : α) : Option (Interval α) :=
  if O.leb start end_ then some ⟨start, end_⟩ else none

/-- Model of `Interval::with_epsilon`: `with_range(center - epsilon, center + epsilon)`.
The two endpoint computations run under the ambient register value `s`
(no `execute` scope here). -/
def Interval.with_epsilon {α : Type} (O : Ops α) (center epsilon : α) (s : FE) :
    Option (Interval α) :=
  Interval.with_range O (O.sub s center epsilon) (O.add s center epsilon)

/-- Model of `Interval::exact`: `with_epsilon(value, Zero::zero())`. -/
def Interval.exact {α : Type} (O : Ops α) (value : α) (s : FE) : Option (Interval α) :=
  Interval.with_epsilon O value O.zero s

/-- Model of `Interval::contains`: `self.start <= value && value <= self.end`. -/
def Interval.contains {α : Type} (O : Ops α) (i : Interval α) (value : α) : Bool :=
  O.leb i.start value && O.leb value i.end_

/-- Model of `Interval::width`: `self.end - self.start`, under the ambient register. -/
def Interval.width {α : Type} (O : Ops α) (i : Interval α) (s : FE) : α :=
  O.sub s i.end_ i.start

/-- Model of `Interval::intersection` from `src/interval.rs`:
`low = partial_max(self.start, other.start)`,
`high = partial_min(self.end, other.end)`,
`None` if `low > high`, else `Some(Interval{low, high})`. -/
def Interval.intersection {α : Type} (O : Ops α) (i other : Interval α) :
    Option (Interval α) :=
  let low := pmax O i.start other.start
  let high := pmin O i.end_ other.end_
  if O.gtb low high then none else some ⟨low, high⟩

/-- Model of `impl PartialOrd<T> for Interval<T>` from `src/interval.rs`:
comparison of an interval against a bare scalar. -/
def Interval.cmpScalar {α : Type} (O : Ops α) (i : Interval α) (other : α) :
    Option Ordering :=
  if O.ltb other i.start then some Ordering.gt
  else if O.gtb other i.end_ then some Ordering.lt
  else if Interval.contains O i other then some Ordering.eq
  else none

/-- Model of `impl Add for Interval<T>`:
`start = Rounding::Downward.execute(|| self.start + other.start)`,
`end = Rounding::Upward.execute(|| self.end + other.end)`. -/
def Interval.add {α : Type} (O : Ops α) (a b : Interval α) (s : FE) :
    Interval α × FE :=
  let st := Rounding.downward.execute (fun s => (O.add s a.start b.start, s)) s
  let en := Rounding.upward.execute (fun s => (O.add s a.end_ b.end_, s)) st.2
  (⟨st.1, en.1⟩, en.2)

/-- Model of `impl Sub for Interval<T>`:
`start = Rounding::Downward.execute(|| self.start - other.start)`,
`end = Rounding::Upward.execute(|| self.end - other.end)`. -/
def Interval.sub {α : Type} (O : Ops α) (a b : Interval α) (s : FE) :
    Interval α × FE :=
  let st := Rounding.downward.execute (fun s => (O.sub s a.start b.start, s)) s
  let en := Rounding.upward.execute (fun s => (O.sub s a.end_ b.end_, s)) st.2
  (⟨st.1, en.1⟩, en.2)

/-- Model of `impl Mul for Interval<T>`: with `(a, b, c, d) = (self.start, self.end,
other.start, other.end)`, the lower bound folds `partial_min` over
`vec![a*d, b*c, b*d]` starting from `a*c` inside a `Downward` scope, the upper
bound folds `partial_max` over the same products inside an `Upward` scope. -/
def Interval.mul {α : Type} (O : Ops α) (x y : Interval α) (s : FE) :
    Interval α × FE :=
  let a := x.start
  let b := x.end_
  let c := y.start
  let d := y.end_
  let mn := Rounding.downward.execute (fun s =>
    ([O.mul s a d, O.mul s b c, O.mul s b d].foldl
      (fun acc i => pmin O acc i) (O.mul s a c), s)) s
  let mx := Rounding.upward.execute (fun s =>
    ([O.mul s a d, O.mul s b c, O.mul s b d].foldl
      (fun acc i => pmax O acc i) (O.mul s a c), s)) mn.2
  (⟨mn.1, mx.1⟩, mx.2)

/-- Model of `impl Div for Interval<T>`: same corner-combination strategy as `Mul`,
with the quotients `a/c, a/d, b/c, b/d`. -/
def Interval.div {α : Type} (O : Ops α) (x y : Interval α) (s : FE) :
    Interval α × FE :=
  let a := x.start
  let b := x.end_
  let c := y.start
  let d := y.end_
  let mn := Rounding.downward.execute (fun s =>
    ([O.div s a d, O.div s b c, O.div s b d].foldl
      (fun acc i => pmin O acc i) (O.div s a c), s)) s
  let mx := Rounding.upward.execute (fun s =>
    ([O.div s a d, O.div s b c, O.div s b d].foldl
      (fun acc i => pmax O acc i) (O.div s a c), s)) mn.2
  (⟨mn.1, mx.1⟩, mx.2)

/-- Model of `impl Neg for Interval<T>`: `[-self.end, -self.start]` (no `execute` scope). -/
def Interval.neg {α : Type} (O : Ops α) (a : Interval α) : Interval α :=
  ⟨O.neg a.end_, O.neg a.start⟩

/-- One iteration of the `fold` inside `Interval::sin` (`src/interval.rs`):
```rust
let mul: T = FromPrimitive::from_u64(2 * i * (2 * i + 1)).unwrap();
let int = Interval::exact(mul);
let mul = x2 / int;
if i % 2 == 0 { acc * mul + acc } else { acc * mul - acc }
```
`Interval::exact` can panic (its `with_range` assertion), hence the `Option`. -/
def Interval.sinStep {α : Type} (O : Ops α) (x2 : Interval α) (i : Nat)
    (accs : Interval α × FE) : Option (Interval α × FE) :=
  let acc := accs.1
  match Interval.exact O (O.fromNat (2 * i * (2 * i + 1))) accs.2 with
  | none => none
  | some int =>
    let md := Interval.div O x2 int accs.2
    if i % 2 == 0 then
      let m := Interval.mul O acc md.1 md.2
      some (Interval.add O m.1 acc m.2)
    else
      let m := Interval.mul O acc md.1 md.2
      some (Interval.sub O m.1 acc m.2)

/-- Model of `Interval::sin` from `src/interval.rs`: `x2 = self * self`, then
`(1u64..500_000).fold(self, ...)` with `sinStep` as the loop body, then both
bounds are clamped by `.max(from_isize(-1).unwrap()).min(one())`.  The Rust
range `1..500_000` iterates over `1, 2, ..., 499_999`, i.e.
`List.range' 1 499999`.  (`x2` is computed once in Rust; the model repeats
the pure term `Interval.mul O x x s`, which denotes the same value/state.
The `Option` plumbing — `bind` in the fold, `map` around the final clamp —
only propagates the modelled panic of `Interval::exact`.) -/
def Interval.sin {α : Type} (O : Ops α) (x : Interval α) (s : FE) :
    Option (Interval α × FE) :=
  ((List.range' 1 499999).foldl
    (fun st i => st.bind (fun accs => Interval.sinStep O (Interval.mul O x x s).1 i accs))
    (some (x, (Interval.mul O x x s).2))).map
    (fun rs =>
      (⟨O.fmin (O.fmax rs.1.start O.negOne) O.one,
        O.fmin (O.fmax rs.1.end_ O.negOne) O.one⟩, rs.2))

/-- Follows the words of the spec (§4.5, steps 1-5): the sine recurrence written as
a counting loop, "for `i` from 1 to 500,000 (inclusive-exclusive)", with the
loop body spelled out per the spec: `term_divisor = Interval::exact(2*i*(2*i+1))`,
`factor = x2 / term_divisor`, `acc = acc * factor + acc` when `i` is even and
`acc = acc * factor - acc` when `i` is odd.  `fuel` counts the remaining
iterations, so the loop runs while `i < 500,000`. -/
def sinSpecLoop {α : Type} (O : Ops α) (x2 : Interval α) :
    Nat → Nat → Interval α × FE → Option (Interval α × FE)
  | 0, _, accs => some accs
  | fuel + 1, i, accs =>
    match Interval.exact O (O.fromNat (2 * i * (2 * i + 1))) accs.2 with
    | none => none
    | some term_divisor =>
      let factor := Interval.div O x2 term_divisor accs.2
      let next :=
        if i % 2 == 0 then
          let m := Interval.mul O accs.1 factor.1 factor.2
          Interval.add O m.1 accs.1 m.2
        else
          let m := Interval.mul O accs.1 factor.1 factor.2
          Interval.sub O m.1 accs.1 m.2
      sinSpecLoop O x2 fuel (i + 1) next

/-- Follows the words of the spec (§4.5): `x2 = x * x`, accumulator initialised to
`x`, the loop above for `i` from 1 inclusive to 500,000 exclusive, and finally
both bounds clamped independently into `[-1, 1]` by `bound.max(-1).min(1)`. -/
def Interval.sinSpec {α : Type} (O : Ops α) (x : Interval α) (s : FE) :
    Option (Interval α × FE) :=
  (sinSpecLoop O (Interval.mul O x x s).1 499999 1 (x, (Interval.mul O x x s).2)).map
    (fun rs =>
      (⟨O.fmin (O.fmax rs.1.start O.negOne) O.one,
        O.fmin (O.fmax rs.1.end_ O.negOne) O.one⟩, rs.2))

/-! ### Instantiations of the numeric parameter

The Rust library is generic over `T`.  Two instantiations are used below:

* `intOps`, an exact (rounding-mode-independent) totally ordered numeric
  type — the behaviour of an ideal exact numeric type, and of `f64` on
  values where no rounding, overflow or special value occurs;
* `floatOps`, over `FloatVal = ℤ ∪ {nan, +∞, -∞}`, which models `f64` with
  IEEE-754 special-value and NaN-comparison semantics.  Finite values are
  carried as exact integers: every concrete value appearing in a theorem
  below is an integer, on which `f64` arithmetic is exact and
  rounding-mode-independent, so the model agrees with `f64` there.
  Signed zeros are not modelled.
-/

/-- Model of `partial_cmp` on a totally ordered type, as Rust derives it for `f64`
restricted to ordinary values: `Less` / `Equal` / `Greater` by trichotomy. -/
def qcmp (a b : ℤ) : Ordering :=
  if a < b then Ordering.lt else if a = b then Ordering.eq else Ordering.gt

/-- Exact integer instantiation of the numeric parameter. -/
def intOps : Ops ℤ where
  cmp a b := some (qcmp a b)
  add _ a b := a + b
  sub _ a b := a - b
  mul _ a b := a * b
  div _ a b := a / b
  neg a := -a
  zero := 0
  one := 1
  negOne := -1
  fromNat n := n
  fmax a b := max a b
  fmin a b := min a b

/-- A model of `f64`: exact finite values extended with `nan` and the two
infinities (no signed zero). -/
inductive FloatVal
  | nan
  | ninf
  | fin (q : ℤ)
  | inf
deriving DecidableEq

/-- Model of `partial_cmp` on `FloatVal`, following IEEE 754 / Rust `f64`:
any comparison involving NaN is `None`; otherwise `-∞ < finite < +∞`. -/
def FloatVal.cmp : FloatVal → FloatVal → Option Ordering
  | .nan, _ => none
  | _, .nan => none
  | .ninf, .ninf => some Ordering.eq
  | .ninf, _ => some Ordering.lt
  | _, .ninf => some Ordering.gt
  | .inf, .inf => some Ordering.eq
  | _, .inf => some Ordering.lt
  | .inf, _ => some Ordering.gt
  | .fin a, .fin b => some (qcmp a b)

/-- IEEE addition on `FloatVal`: NaN propagates, `∞ + (-∞) = NaN`. -/
def FloatVal.add : FloatVal → FloatVal → FloatVal
  | .nan, _ => .nan
  | _, .nan => .nan
  | .inf, .ninf => .nan
  | .ninf, .inf => .nan
  | .inf, _ => .inf
  | _, .inf => .inf
  | .ninf, _ => .ninf
  | _, .ninf => .ninf
  | .fin a, .fin b => .fin (a + b)

/-- IEEE subtraction on `FloatVal`: NaN propagates, `∞ - ∞ = NaN`. -/
def FloatVal.sub : FloatVal → FloatVal → FloatVal
  | .nan, _ => .nan
  | _, .nan => .nan
  | .inf, .inf => .nan
  | .ninf, .ninf => .nan
  | .inf, _ => .inf
  | .ninf, _ => .ninf
  | _, .inf => .ninf
  | _, .ninf => .inf
  | .fin a, .fin b => .fin (a - b)

/-- IEEE multiplication on `FloatVal`: NaN propagates, `0 * ±∞ = NaN`,
otherwise infinities follow the sign rule. -/
def FloatVal.mul : FloatVal → FloatVal → FloatVal
  | .nan, _ => .nan
  | _, .nan => .nan
  | .inf, .inf => .inf
  | .inf, .ninf => .ninf
  | .ninf, .inf => .ninf
  | .ninf, .ninf => .inf
  | .inf, .fin q => if q = 0 then .nan else if 0 < q then .inf else .ninf
  | .fin q, .inf => if q = 0 then .nan else if 0 < q then .inf else .ninf
  | .ninf, .fin q => if q = 0 then .nan else if 0 < q then .ninf else .inf
  | .fin q, .ninf => if q = 0 then .nan else if 0 < q then .ninf else .inf
  | .fin a, .fin b => .fin (a * b)

/-- IEEE division on `FloatVal` (no signed zero: a zero divisor behaves as
`+0`): NaN propagates, `±∞ / ±∞ = NaN`, `x / ±∞ = 0`, finite `x / 0` is
`NaN` when `x = 0` and a signed infinity otherwise.  Finite division is
integer division (exactness of division results is irrelevant to every
property proved below). -/
def FloatVal.div : FloatVal → FloatVal → FloatVal
  | .nan, _ => .nan
  | _, .nan => .nan
  | .inf, .inf => .nan
  | .inf, .ninf => .nan
  | .ninf, .inf => .nan
  | .ninf, .ninf => .nan
  | .inf, .fin q => if q < 0 then .ninf else .inf
  | .ninf, .fin q => if q < 0 then .inf else .ninf
  | .fin _, .inf => .fin 0
  | .fin _, .ninf => .fin 0
  | .fin a, .fin b =>
    if b = 0 then
      if a = 0 then .nan else if 0 < a then .inf else .ninf
    else .fin (a / b)

/-- IEEE negation on `FloatVal`. -/
def FloatVal.neg : FloatVal → FloatVal
  | .nan => .nan
  | .inf => .ninf
  | .ninf => .inf
  | .fin q => .fin (-q)

/-- Rust `f64::max`: "if one of the arguments is NaN, then the other is
returned"; otherwise the larger value. -/
def FloatVal.fmax : FloatVal → FloatVal → FloatVal
  | .nan, y => y
  | x, .nan => x
  | .inf, _ => .inf
  | _, .inf => .inf
  | .ninf, y => y
  | x, .ninf => x
  | .fin a, .fin b => .fin (max a b)

/-- Rust `f64::min`: NaN-ignoring minimum. -/
def FloatVal.fmin : FloatVal → FloatVal → FloatVal
  | .nan, y => y
  | x, .nan => x
  | .ninf, _ => .ninf
  | _, .ninf => .ninf
  | .inf, y => y
  | x, .inf => x
  | .fin a, .fin b => .fin (min a b)

/-- The `f64`-model instantiation of the numeric parameter.  Arithmetic is
rounding-mode-independent because the model has unbounded precision; on the
concrete values appearing in the theorems below the true `f64` results are
also mode-independent. -/
def floatOps : Ops FloatVal where
  cmp := FloatVal.cmp
  add _ a b := a.add b
  sub _ a b := a.sub b
  mul _ a b := a.mul b
  div _ a b := a.div b
  neg := FloatVal.neg
  zero := .fin 0
  one := .fin 1
  negOne := .fin (-1)
  fromNat n := .fin n
  fmax := FloatVal.fmax
  fmin := FloatVal.fmin

/-- The order `≤` that `FloatVal.cmp` encodes (false on NaN operands). -/
def FloatVal.le : FloatVal → FloatVal → Prop
  | .nan, _ => False
  | _, .nan => False
  | .ninf, _ => True
  | _, .ninf => False
  | _, .inf => True
  | .inf, _ => False
  | .fin a, .fin b => a ≤ b

/-- The strict order `<` that `FloatVal.cmp` encodes (false on NaN operands). -/
def FloatVal.lt : FloatVal → FloatVal → Prop
  | .nan, _ => False
  | _, .nan => False
  | .ninf, .ninf => False
  | .ninf, _ => True
  | _, .ninf => False
  | .inf, _ => False
  | _, .inf => True
  | .fin a, .fin b => a < b

instance : ∀ x y : FloatVal, Decidable (FloatVal.le x y) := by
  intro x y; cases x <;> cases y <;> unfold FloatVal.le <;> infer_instance

instance : ∀ x y : FloatVal, Decidable (FloatVal.lt x y) := by
  intro x y; cases x <;> cases y <;> unfold FloatVal.lt <;> infer_instance

/-- Consistency of a `PartialOrd` comparison on a finite set `L` of values:
every pair of members is comparable, `Less`/`Greater` and `Equal` are
swap-dual, and `<=` is transitive on members.  This is the documented Rust
`PartialOrd` contract restricted to `L`; it holds for IEEE comparisons as
long as no member is NaN. -/
def cmpOK {α : Type} (O : Ops α) (L : List α) : Prop :=
  (∀ a ∈ L, ∀ b ∈ L, O.cmp a b ≠ none) ∧
  (∀ a ∈ L, ∀ b ∈ L, (O.cmp a b = some Ordering.lt ↔ O.cmp b a = some Ordering.gt)) ∧
  (∀ a ∈ L, ∀ b ∈ L, (O.cmp a b = some Ordering.eq ↔ O.cmp b a = some Ordering.eq)) ∧
  (∀ a ∈ L, ∀ b ∈ L, ∀ c ∈ L,
    O.leb a b = true → O.leb b c = true → O.leb a c = true)

instance {α : Type} [DecidableEq α] (O : Ops α) (L : List α) : Decidable (cmpOK O L) := by
  unfold cmpOK; infer_instance

/-- The four corner products of spec §4.4 (`a.start*b.start`, `a.start*b.end`,
`a.end*b.start`, `a.end*b.end`), computed with the register holding the given
code of the given mode. -/
def cornerProducts {α : Type} (O : Ops α) (m : Rounding) (a b : Interval α) : List α :=
  [O.mul m.code a.start b.start, O.mul m.code a.start b.end_,
   O.mul m.code a.end_ b.start, O.mul m.code a.end_ b.end_]

/-- Property that `v` is a minimum of the list `l` under the comparison of `O`: it is a member
and compares `<=` to every member. -/
def isMinOf {α : Type} (O : Ops α) (v : α) (l : List α) : Prop :=
  v ∈ l ∧ ∀ w ∈ l, O.leb v w = true

/-- Property that `v` is a maximum of the list `l` under the comparison of `O`: it is a member
and compares `>=` to every member. -/
def isMaxOf {α : Type} (O : Ops α) (v : α) (l : List α) : Prop :=
  v ∈ l ∧ ∀ w ∈ l, O.geb v w = true

instance {α : Type} [DecidableEq α] (O : Ops α) (v : α) (l : List α) :
    Decidable (isMinOf O v l) := by
  unfold isMinOf; infer_instance

instance {α : Type} [DecidableEq α] (O : Ops α) (v : α) (l : List α) :
    Decidable (isMaxOf O v l) := by
  unfold isMaxOf; infer_instance

/-! ### Comparison bridges -/

theorem Ops.ltb_iff {α : Type} (O : Ops α) (a b : α) :
    O.ltb a b = true ↔ O.cmp a b = some Ordering.lt := by
  simp [Ops.ltb]

theorem Ops.gtb_iff {α : Type} (O : Ops α) (a b : α) :
    O.gtb a b = true ↔ O.cmp a b = some Ordering.gt := by
  simp [Ops.gtb]

theorem Ops.leb_iff {α : Type} (O : Ops α) (a b : α) :
    O.leb a b = true ↔ (O.cmp a b = some Ordering.lt ∨ O.cmp a b = some Ordering.eq) := by
  unfold Ops.leb
  rcases h : O.cmp a b with _ | o
  · simp
  · cases o <;> simp

theorem Ops.geb_iff {α : Type} (O : Ops α) (a b : α) :
    O.geb a b = true ↔ (O.cmp a b = some Ordering.gt ∨ O.cmp a b = some Ordering.eq) := by
  unfold Ops.geb
  rcases h : O.cmp a b with _ | o
  · simp
  · cases o <;> simp

theorem qcmp_lt_iff {a b : ℤ} : qcmp a b = Ordering.lt ↔ a < b := by
  unfold qcmp; split_ifs <;> simp_all <;> omega

theorem qcmp_eq_iff {a b : ℤ} : qcmp a b = Ordering.eq ↔ a = b := by
  unfold qcmp; split_ifs <;> simp_all <;> omega

theorem qcmp_gt_iff {a b : ℤ} : qcmp a b = Ordering.gt ↔ b < a := by
  unfold qcmp; split_ifs <;> simp_all <;> omega

theorem intOps_leb {a b : ℤ} : intOps.leb a b = true ↔ a ≤ b := by
  rw [Ops.leb_iff]
  simp only [intOps, Option.some.injEq, qcmp_lt_iff, qcmp_eq_iff]
  omega

theorem intOps_ltb {a b : ℤ} : intOps.ltb a b = true ↔ a < b := by
  rw [Ops.ltb_iff]
  simp only [intOps, Option.some.injEq, qcmp_lt_iff]

theorem intOps_gtb {a b : ℤ} : intOps.gtb a b = true ↔ b < a := by
  rw [Ops.gtb_iff]
  simp only [intOps, Option.some.injEq, qcmp_gt_iff]

theorem intOps_geb {a b : ℤ} : intOps.geb a b = true ↔ b ≤ a := by
  rw [Ops.geb_iff]
  simp only [intOps, Option.some.injEq, qcmp_gt_iff, qcmp_eq_iff]
  omega

theorem fleb_iff {x y : FloatVal} : floatOps.leb x y = true ↔ FloatVal.le x y := by
  rw [Ops.leb_iff]
  cases x <;> cases y <;>
    simp [floatOps, FloatVal.cmp, FloatVal.le, qcmp_lt_iff, qcmp_eq_iff] <;> omega

theorem fltb_iff {x y : FloatVal} : floatOps.ltb x y = true ↔ FloatVal.lt x y := by
  rw [Ops.ltb_iff]
  cases x <;> cases y <;>
    simp [floatOps, FloatVal.cmp, FloatVal.lt, qcmp_lt_iff]

theorem fgtb_iff {x y : FloatVal} : floatOps.gtb x y = true ↔ FloatVal.lt y x := by
  rw [Ops.gtb_iff]
  cases x <;> cases y <;>
    simp [floatOps, FloatVal.cmp, FloatVal.lt, qcmp_gt_iff]

theorem fgeb_iff {x y : FloatVal} : floatOps.geb x y = true ↔ FloatVal.le y x := by
  rw [Ops.geb_iff]
  cases x <;> cases y <;>
    simp [floatOps, FloatVal.cmp, FloatVal.le, qcmp_gt_iff, qcmp_eq_iff] <;> omega

/-! ### Order facts for the `f64` model -/

theorem FloatVal.le_nonan {x y : FloatVal} (h : FloatVal.le x y) :
    x ≠ FloatVal.nan ∧ y ≠ FloatVal.nan := by
  cases x <;> cases y <;> simp_all [FloatVal.le]

theorem FloatVal.lt_nonan {x y : FloatVal} (h : FloatVal.lt x y) :
    x ≠ FloatVal.nan ∧ y ≠ FloatVal.nan := by
  cases x <;> cases y <;> simp_all [FloatVal.lt]

theorem FloatVal.le_refl_nonan {x : FloatVal} (h : x ≠ FloatVal.nan) : FloatVal.le x x := by
  cases x <;> simp_all [FloatVal.le]

theorem FloatVal.le_trans {x y z : FloatVal}
    (h1 : FloatVal.le x y) (h2 : FloatVal.le y z) : FloatVal.le x z := by
  cases x <;> cases y <;> cases z <;> simp_all [FloatVal.le] <;> omega

theorem FloatVal.lt_of_lt_of_le {x y z : FloatVal}
    (h1 : FloatVal.lt x y) (h2 : FloatVal.le y z) : FloatVal.lt x z := by
  cases x <;> cases y <;> cases z <;> simp_all [FloatVal.le, FloatVal.lt] <;> omega

theorem FloatVal.lt_of_le_of_lt {x y z : FloatVal}
    (h1 : FloatVal.le x y) (h2 : FloatVal.lt y z) : FloatVal.lt x z := by
  cases x <;> cases y <;> cases z <;> simp_all [FloatVal.le, FloatVal.lt] <;> omega

theorem FloatVal.le_of_lt {x y : FloatVal} (h : FloatVal.lt x y) : FloatVal.le x y := by
  cases x <;> cases y <;> simp_all [FloatVal.le, FloatVal.lt] <;> omega

theorem FloatVal.lt_irrefl {x : FloatVal} (h : FloatVal.lt x x) : False := by
  cases x <;> simp_all [FloatVal.lt] <;> omega

theorem FloatVal.not_lt_of_le {x y : FloatVal} (h : FloatVal.le x y) :
    ¬ FloatVal.lt y x := by
  intro hlt
  exact FloatVal.lt_irrefl (FloatVal.lt_of_le_of_lt h hlt)

theorem FloatVal.le_total_nonan {x y : FloatVal}
    (hx : x ≠ FloatVal.nan) (hy : y ≠ FloatVal.nan) :
    FloatVal.le x y ∨ FloatVal.le y x := by
  cases x <;> cases y <;> simp_all [FloatVal.le] <;> omega

theorem FloatVal.le_antisymm {x y : FloatVal}
    (h1 : FloatVal.le x y) (h2 : FloatVal.le y x) : x = y := by
  cases x <;> cases y <;> simp_all [FloatVal.le] <;> omega

theorem FloatVal.eq_of_le_not_lt {x y : FloatVal}
    (h1 : FloatVal.le x y) (h2 : ¬ FloatVal.lt x y) : x = y := by
  cases x <;> cases y <;> simp_all [FloatVal.le, FloatVal.lt] <;> omega

theorem FloatVal.lt_of_not_le {x y : FloatVal}
    (hx : x ≠ FloatVal.nan) (hy : y ≠ FloatVal.nan) (h : ¬ FloatVal.le x y) :
    FloatVal.lt y x := by
  cases x <;> cases y <;> simp_all [FloatVal.le, FloatVal.lt] <;> omega

/-! ### Folding `partial_min` / `partial_max` under a consistent comparison -/

theorem cmpOK.leb_refl {α : Type} {O : Ops α} {L : List α} (h : cmpOK O L)
    {a : α} (ha : a ∈ L) : O.leb a a = true := by
  obtain ⟨hc, hlt, _, _⟩ := h
  rw [Ops.leb_iff]
  rcases he : O.cmp a a with _ | o
  · exact absurd he (hc a ha a ha)
  · cases o with
    | lt =>
      have := (hlt a ha a ha).mp he
      rw [he] at this
      simp at this
    | eq => exact Or.inr rfl
    | gt =>
      have := (hlt a ha a ha).mpr he
      rw [he] at this
      simp at this

theorem cmpOK.leb_total {α : Type} {O : Ops α} {L : List α} (h : cmpOK O L)
    {a b : α} (ha : a ∈ L) (hb : b ∈ L) :
    O.leb a b = true ∨ O.leb b a = true := by
  obtain ⟨hc, hlt, _, _⟩ := h
  rcases he : O.cmp a b with _ | o
  · exact absurd he (hc a ha b hb)
  · cases o with
    | lt => exact Or.inl ((Ops.leb_iff O a b).mpr (Or.inl he))
    | eq => exact Or.inl ((Ops.leb_iff O a b).mpr (Or.inr he))
    | gt => exact Or.inr ((Ops.leb_iff O b a).mpr (Or.inl ((hlt b hb a ha).mpr he)))

theorem cmpOK.geb_eq_leb {α : Type} {O : Ops α} {L : List α} (h : cmpOK O L)
    {a b : α} (ha : a ∈ L) (hb : b ∈ L) :
    O.geb a b = true ↔ O.leb b a = true := by
  obtain ⟨_, hlt, heq, _⟩ := h
  rw [Ops.geb_iff, Ops.leb_iff]
  constructor
  · rintro (hg | hg)
    · exact Or.inl ((hlt b hb a ha).mpr hg)
    · exact Or.inr ((heq a ha b hb).mp hg)
  · rintro (hl | hl)
    · exact Or.inl ((hlt b hb a ha).mp hl)
    · exact Or.inr ((heq b hb a ha).mp hl)

theorem pmin_eq_or {α : Type} (O : Ops α) (a b : α) :
    pmin O a b = a ∨ pmin O a b = b := by
  unfold pmin; split
  · exact Or.inl rfl
  · exact Or.inr rfl

theorem pmax_eq_or {α : Type} (O : Ops α) (a b : α) :
    pmax O a b = a ∨ pmax O a b = b := by
  unfold pmax; split
  · exact Or.inl rfl
  · exact Or.inr rfl

theorem cmpOK.pmin_le_left {α : Type} {O : Ops α} {L : List α} (h : cmpOK O L)
    {a b : α} (ha : a ∈ L) (hb : b ∈ L) :
    O.leb (pmin O a b) a = true := by
  unfold pmin; split_ifs with hcase
  · exact h.leb_refl ha
  · rcases h.leb_total ha hb with ht | ht
    · exact absurd ht (by simp_all)
    · exact ht

theorem cmpOK.pmin_le_right {α : Type} {O : Ops α} {L : List α} (h : cmpOK O L)
    {a b : α} (ha : a ∈ L) (hb : b ∈ L) :
    O.leb (pmin O a b) b = true := by
  unfold pmin; split_ifs with hcase
  · exact hcase
  · exact h.leb_refl hb

theorem cmpOK.pmax_ge_left {α : Type} {O : Ops α} {L : List α} (h : cmpOK O L)
    {a b : α} (ha : a ∈ L) (hb : b ∈ L) :
    O.geb (pmax O a b) a = true := by
  unfold pmax; split_ifs with hcase
  · exact (h.geb_eq_leb ha ha).mpr (h.leb_refl ha)
  · rcases h.leb_total ha hb with ht | ht
    · exact (h.geb_eq_leb hb ha).mpr ht
    · exact absurd ((h.geb_eq_leb ha hb).mpr ht) (by simp_all)

theorem cmpOK.pmax_ge_right {α : Type} {O : Ops α} {L : List α} (h : cmpOK O L)
    {a b : α} (ha : a ∈ L) (hb : b ∈ L) :
    O.geb (pmax O a b) b = true := by
  unfold pmax; split_ifs with hcase
  · exact hcase
  · exact (h.geb_eq_leb hb hb).mpr (h.leb_refl hb)

theorem cmpOK.foldl_pmin {α : Type} {O : Ops α} {L : List α} (h : cmpOK O L) :
    ∀ (l : List α) (acc : α), acc ∈ L → (∀ z ∈ l, z ∈ L) →
      ((List.foldl (fun acc i => pmin O acc i) acc l = acc ∨
          List.foldl (fun acc i => pmin O acc i) acc l ∈ l) ∧
        O.leb (List.foldl (fun acc i => pmin O acc i) acc l) acc = true ∧
        ∀ z ∈ l, O.leb (List.foldl (fun acc i => pmin O acc i) acc l) z = true) := by
  intro l
  induction l with
  | nil =>
    intro acc hacc _
    exact ⟨Or.inl rfl, h.leb_refl hacc, by simp⟩
  | cons x xs ih =>
    intro acc hacc hsub
    have hx : x ∈ L := hsub x (by simp)
    have hxs : ∀ z ∈ xs, z ∈ L := fun z hz => hsub z (by simp [hz])
    have hm : pmin O acc x ∈ L := by
      rcases pmin_eq_or O acc x with h1 | h1 <;> rw [h1] <;> assumption
    obtain ⟨hmem, hlem, hall⟩ := ih (pmin O acc x) hm hxs
    have hfold : List.foldl (fun acc i => pmin O acc i) acc (x :: xs) =
        List.foldl (fun acc i => pmin O acc i) (pmin O acc x) xs := rfl
    rw [hfold]
    set r := List.foldl (fun acc i => pmin O acc i) (pmin O acc x) xs with hr
    have hrL : r ∈ L := by
      rcases hmem with h1 | h1
      · rw [h1]; exact hm
      · exact hxs r h1
    have htrans := h.2.2.2
    refine ⟨?_, ?_, ?_⟩
    · rcases hmem with h1 | h1
      · rcases pmin_eq_or O acc x with h2 | h2
        · exact Or.inl (h1.trans h2)
        · exact Or.inr (by simp [h1, h2])
      · exact Or.inr (by simp [h1])
    · exact htrans r hrL (pmin O acc x) hm acc hacc hlem (h.pmin_le_left hacc hx)
    · intro z hz
      rcases List.mem_cons.mp hz with h1 | h1
      · rw [h1]
        exact htrans r hrL (pmin O acc x) hm x hx hlem (h.pmin_le_right hacc hx)
      · exact hall z h1

theorem cmpOK.foldl_pmax {α : Type} {O : Ops α} {L : List α} (h : cmpOK O L) :
    ∀ (l : List α) (acc : α), acc ∈ L → (∀ z ∈ l, z ∈ L) →
      ((List.foldl (fun acc i => pmax O acc i) acc l = acc ∨
          List.foldl (fun acc i => pmax O acc i) acc l ∈ l) ∧
        O.geb (List.foldl (fun acc i => pmax O acc i) acc l) acc = true ∧
        ∀ z ∈ l, O.geb (List.foldl (fun acc i => pmax O acc i) acc l) z = true) := by
  intro l
  induction l with
  | nil =>
    intro acc hacc _
    exact ⟨Or.inl rfl, (h.geb_eq_leb hacc hacc).mpr (h.leb_refl hacc), by simp⟩
  | cons x xs ih =>
    intro acc hacc hsub
    have hx : x ∈ L := hsub x (by simp)
    have hxs : ∀ z ∈ xs, z ∈ L := fun z hz => hsub z (by simp [hz])
    have hm : pmax O acc x ∈ L := by
      rcases pmax_eq_or O acc x with h1 | h1 <;> rw [h1] <;> assumption
    obtain ⟨hmem, hgem, hall⟩ := ih (pmax O acc x) hm hxs
    have hfold : List.foldl (fun acc i => pmax O acc i) acc (x :: xs) =
        List.foldl (fun acc i => pmax O acc i) (pmax O acc x) xs := rfl
    rw [hfold]
    set r := List.foldl (fun acc i => pmax O acc i) (pmax O acc x) xs with hr
    have hrL : r ∈ L := by
      rcases hmem with h1 | h1
      · rw [h1]; exact hm
      · exact hxs r h1
    have htrans := h.2.2.2
    have hgeb_trans : ∀ p ∈ L, ∀ q ∈ L, ∀ t ∈ L,
        O.geb p q = true → O.geb q t = true → O.geb p t = true := by
      intro p hp q hq t ht h1 h2
      have h1' := (h.geb_eq_leb hp hq).mp h1
      have h2' := (h.geb_eq_leb hq ht).mp h2
      exact (h.geb_eq_leb hp ht).mpr (htrans t ht q hq p hp h2' h1')
    refine ⟨?_, ?_, ?_⟩
    · rcases hmem with h1 | h1
      · rcases pmax_eq_or O acc x with h2 | h2
        · exact Or.inl (h1.trans h2)
        · exact Or.inr (by simp [h1, h2])
      · exact Or.inr (by simp [h1])
    · exact hgeb_trans r hrL (pmax O acc x) hm acc hacc hgem (h.pmax_ge_left hacc hx)
    · intro z hz
      rcases List.mem_cons.mp hz with h1 | h1
      · rw [h1]
        exact hgeb_trans r hrL (pmax O acc x) hm x hx hgem (h.pmax_ge_right hacc hx)
      · exact hall z h1

/-! ### `cmpOK` holds for the instantiations -/

theorem cmpOK_intOps (L : List ℤ) : cmpOK intOps L := by
  refine ⟨?_, ?_, ?_, ?_⟩
  · intro a _ b _
    simp [intOps]
  · intro a _ b _
    simp [intOps, qcmp_lt_iff, qcmp_gt_iff]
  · intro a _ b _
    simp [intOps, qcmp_eq_iff]
    omega
  · intro a _ b _ c _ h1 h2
    rw [intOps_leb] at h1 h2 ⊢
    omega

theorem fcmp_lt_swap (x y : FloatVal) :
    FloatVal.cmp x y = some Ordering.lt ↔ FloatVal.cmp y x = some Ordering.gt := by
  cases x <;> cases y <;> simp [FloatVal.cmp, qcmp_lt_iff, qcmp_gt_iff]

theorem fcmp_eq_swap (x y : FloatVal) :
    FloatVal.cmp x y = some Ordering.eq ↔ FloatVal.cmp y x = some Ordering.eq := by
  cases x <;> cases y <;> simp [FloatVal.cmp, qcmp_eq_iff] <;> omega

theorem cmpOK_floatOps_of_nonan {L : List FloatVal}
    (h : ∀ p ∈ L, p ≠ FloatVal.nan) : cmpOK floatOps L := by
  refine ⟨?_, ?_, ?_, ?_⟩
  · intro a ha b hb
    have ha' := h a ha
    have hb' := h b hb
    cases a <;> cases b <;> simp_all [floatOps, FloatVal.cmp]
  · intro a _ b _
    exact fcmp_lt_swap a b
  · intro a _ b _
    exact fcmp_eq_swap a b
  · intro a _ b _ c _ h1 h2
    rw [fleb_iff] at h1 h2 ⊢
    exact FloatVal.le_trans h1 h2

/-! ### Evaluation of the `execute`-scoped operators

The computation of each bound runs with the register holding the just-set mode
code; afterwards the (buggy) restore leaves the register at `0`. -/

theorem Interval.add_eval {α : Type} (O : Ops α) (a b : Interval α) (s : FE) :
    Interval.add O a b s =
      (⟨O.add Rounding.downward.code a.start b.start,
        O.add Rounding.upward.code a.end_ b.end_⟩, 0) := rfl

theorem Interval.sub_eval {α : Type} (O : Ops α) (a b : Interval α) (s : FE) :
    Interval.sub O a b s =
      (⟨O.sub Rounding.downward.code a.start b.start,
        O.sub Rounding.upward.code a.end_ b.end_⟩, 0) := rfl

theorem Interval.mul_eval {α : Type} (O : Ops α) (x y : Interval α) (s : FE) :
    Interval.mul O x y s =
      (⟨List.foldl (fun acc i => pmin O acc i) (O.mul Rounding.downward.code x.start y.start)
          [O.mul Rounding.downward.code x.start y.end_,
           O.mul Rounding.downward.code x.end_ y.start,
           O.mul Rounding.downward.code x.end_ y.end_],
        List.foldl (fun acc i => pmax O acc i) (O.mul Rounding.upward.code x.start y.start)
          [O.mul Rounding.upward.code x.start y.end_,
           O.mul Rounding.upward.code x.end_ y.start,
           O.mul Rounding.upward.code x.end_ y.end_]⟩, 0) := rfl

theorem Interval.div_eval {α : Type} (O : Ops α) (x y : Interval α) (s : FE) :
    Interval.div O x y s =
      (⟨List.foldl (fun acc i => pmin O acc i) (O.div Rounding.downward.code x.start y.start)
          [O.div Rounding.downward.code x.start y.end_,
           O.div Rounding.downward.code x.end_ y.start,
           O.div Rounding.downward.code x.end_ y.end_],
        List.foldl (fun acc i => pmax O acc i) (O.div Rounding.upward.code x.start y.start)
          [O.div Rounding.upward.code x.start y.end_,
           O.div Rounding.upward.code x.end_ y.start,
           O.div Rounding.upward.code x.end_ y.end_]⟩, 0) := rfl

/-! ### `partial_min` / `partial_max` commute on non-NaN `f64` values -/

theorem pmax_comm_floatOps {x y : FloatVal}
    (hx : x ≠ FloatVal.nan) (hy : y ≠ FloatVal.nan) :
    pmax floatOps x y = pmax floatOps y x := by
  unfold pmax
  by_cases h1 : floatOps.geb x y = true
  · by_cases h2 : floatOps.geb y x = true
    · simp only [h1, h2, if_true]
      exact FloatVal.le_antisymm (fgeb_iff.mp h2) (fgeb_iff.mp h1)
    · simp [h1, h2]
  · by_cases h2 : floatOps.geb y x = true
    · simp [h1, h2]
    · rcases FloatVal.le_total_nonan hx hy with ht | ht
      · exact absurd (fgeb_iff.mpr ht) h2
      · exact absurd (fgeb_iff.mpr ht) h1

theorem pmin_comm_floatOps {x y : FloatVal}
    (hx : x ≠ FloatVal.nan) (hy : y ≠ FloatVal.nan) :
    pmin floatOps x y = pmin floatOps y x := by
  unfold pmin
  by_cases h1 : floatOps.leb x y = true
  · by_cases h2 : floatOps.leb y x = true
    · simp only [h1, h2, if_true]
      exact FloatVal.le_antisymm (fleb_iff.mp h1) (fleb_iff.mp h2)
    · simp [h1, h2]
  · by_cases h2 : floatOps.leb y x = true
    · simp [h1, h2]
    · rcases FloatVal.le_total_nonan hx hy with ht | ht
      · exact absurd (fleb_iff.mpr ht) h1
      · exact absurd (fleb_iff.mpr ht) h2

/-! ### The sine fold agrees with the counting loop of the spec -/

theorem foldl_sinStep_none {α : Type} (O : Ops α) (x2 : Interval α) (l : List Nat) :
    l.foldl (fun st j => st.bind (fun accs => Interval.sinStep O x2 j accs))
      none = none := by
  induction l with
  | nil => rfl
  | cons x xs ih => exact ih

theorem range_fold_eq_sinSpecLoop {α : Type} (O : Ops α) (x2 : Interval α) :
    ∀ (n i : Nat) (accs : Interval α × FE),
      (List.range' i n).foldl
        (fun st j => st.bind (fun accs => Interval.sinStep O x2 j accs))
        (some accs) =
      sinSpecLoop O x2 n i accs := by
  intro n
  induction n with
  | zero => intro i accs; rfl
  | succ n ih =>
    intro i accs
    rw [List.range'_succ, List.foldl_cons]
    show (List.range' (i+1) n).foldl _ (Interval.sinStep O x2 i accs) = _
    unfold sinSpecLoop Interval.sinStep
    rcases he : Interval.exact O (O.fromNat (2 * i * (2 * i + 1))) accs.2 with _ | td
    · exact foldl_sinStep_none O x2 (List.range' (i+1) n)
    · by_cases hc : (i % 2 == 0) = true
      · simp only [hc, if_true]
        exact ih (i+1) _
      · simp only [hc, if_false, Bool.false_eq_true]
        exact ih (i+1) _

/-! ### Totality and clamping of `sin` over the `f64` model -/

theorem exact_floatOps_int (k : ℤ) (s : FE) :
    Interval.exact floatOps (FloatVal.fin k) s =
      some ⟨FloatVal.fin k, FloatVal.fin k⟩ := by
  have hsub : floatOps.sub s (FloatVal.fin k) floatOps.zero = FloatVal.fin k := by
    simp [floatOps, FloatVal.sub]
  have hadd : floatOps.add s (FloatVal.fin k) floatOps.zero = FloatVal.fin k := by
    simp [floatOps, FloatVal.add]
  unfold Interval.exact Interval.with_epsilon
  rw [hsub, hadd]
  unfold Interval.with_range
  have hle : floatOps.leb (FloatVal.fin k) (FloatVal.fin k) = true := by
    rw [fleb_iff]; simp [FloatVal.le]
  simp [hle]

theorem sinStep_floatOps_some (x2 : Interval FloatVal) (i : Nat)
    (accs : Interval FloatVal × FE) :
    ∃ out, Interval.sinStep floatOps x2 i accs = some out := by
  unfold Interval.sinStep
  rw [show floatOps.fromNat (2 * i * (2 * i + 1)) =
        FloatVal.fin (2 * i * (2 * i + 1)) from rfl]
  rw [exact_floatOps_int]
  by_cases hc : (i % 2 == 0) = true
  · simp [hc]
  · simp [hc]

theorem foldl_sinStep_floatOps_some (x2 : Interval FloatVal) :
    ∀ (l : List Nat) (accs : Interval FloatVal × FE),
      ∃ out,
        l.foldl (fun st j => st.bind (fun accs => Interval.sinStep floatOps x2 j accs))
          (some accs) = some out := by
  intro l
  induction l with
  | nil => intro accs; exact ⟨accs, rfl⟩
  | cons x xs ih =>
    intro accs
    rw [List.foldl_cons]
    obtain ⟨out, hout⟩ := sinStep_floatOps_some x2 x accs
    show ∃ o, (xs.foldl (fun st j => st.bind (fun accs => Interval.sinStep floatOps x2 j accs))
      (Interval.sinStep floatOps x2 x accs)) = some o
    rw [hout]
    exact ih out

theorem clamp_mem (v : FloatVal) :
    FloatVal.le (FloatVal.fin (-1))
      (FloatVal.fmin (FloatVal.fmax v (FloatVal.fin (-1))) (FloatVal.fin 1)) ∧
    FloatVal.le (FloatVal.fmin (FloatVal.fmax v (FloatVal.fin (-1))) (FloatVal.fin 1))
      (FloatVal.fin 1) := by
  cases v <;> simp [FloatVal.fmax, FloatVal.fmin, FloatVal.le] <;> omega

theorem fcontains_iff {iv : Interval FloatVal} {v : FloatVal} :
    Interval.contains floatOps iv v = true ↔
      (FloatVal.le iv.start v ∧ FloatVal.le v iv.end_) := by
  simp [Interval.contains, Bool.and_eq_true, fleb_iff]

/-! ### `partial_min` / `partial_max` over the exact instantiation -/

theorem pmin_intOps (a b : ℤ) : pmin intOps a b = min a b := by
  unfold pmin
  by_cases h : intOps.leb a b = true
  · rw [if_pos h, min_eq_left (intOps_leb.mp h)]
  · rw [if_neg h]
    have hba : b ≤ a := le_of_not_le (fun hc => h (intOps_leb.mpr hc))
    rw [min_eq_right hba]

theorem pmax_intOps (a b : ℤ) : pmax intOps a b = max a b := by
  unfold pmax
  by_cases h : intOps.geb a b = true
  · rw [if_pos h, max_eq_left (intOps_geb.mp h)]
  · rw [if_neg h]
    have hba : a ≤ b := le_of_not_le (fun hc => h (intOps_geb.mpr hc))
    rw [max_eq_right hba]

theorem foldl_pmin_intOps_le (l : List ℤ) :
    ∀ acc : ℤ, List.foldl (fun x y => pmin intOps x y) acc l ≤ acc := by
  induction l with
  | nil => intro acc; exact le_refl acc
  | cons x xs ih =>
    intro acc
    calc List.foldl (fun x y => pmin intOps x y) (pmin intOps acc x) xs
        ≤ pmin intOps acc x := ih (pmin intOps acc x)
      _ ≤ acc := by rw [pmin_intOps]; exact min_le_left acc x

theorem foldl_pmax_intOps_ge (l : List ℤ) :
    ∀ acc : ℤ, acc ≤ List.foldl (fun x y => pmax intOps x y) acc l := by
  induction l with
  | nil => intro acc; exact le_refl acc
  | cons x xs ih =>
    intro acc
    calc acc ≤ pmax intOps acc x := by rw [pmax_intOps]; exact le_max_left acc x
      _ ≤ List.foldl (fun x y => pmax intOps x y) (pmax intOps acc x) xs :=
          ih (pmax intOps acc x)

theorem mul_fold_minmax {α : Type} (O : Ops α) (a b : Interval α) (s : FE)
    (hdown : cmpOK O (cornerProducts O Rounding.downward a b))
    (hup : cmpOK O (cornerProducts O Rounding.upward a b)) :
    isMinOf O (Interval.mul O a b s).1.start
      (cornerProducts O Rounding.downward a b) ∧
    isMaxOf O (Interval.mul O a b s).1.end_
      (cornerProducts O Rounding.upward a b) := by
  constructor
  · obtain ⟨hmem, hle, hall⟩ := hdown.foldl_pmin
      [O.mul Rounding.downward.code a.start b.end_,
       O.mul Rounding.downward.code a.end_ b.start,
       O.mul Rounding.downward.code a.end_ b.end_]
      (O.mul Rounding.downward.code a.start b.start)
      (by simp [cornerProducts])
      (by intro z hz; simp [cornerProducts]; simp at hz; tauto)
    rw [Interval.mul_eval]
    refine ⟨?_, ?_⟩
    · show _ ∈ cornerProducts O Rounding.downward a b
      simp only [cornerProducts, List.mem_cons]
      rcases hmem with h | h
      · exact Or.inl h
      · simp at h
        tauto
    · intro w hw
      simp only [cornerProducts, List.mem_cons] at hw
      rcases hw with h | h | h | h
      · rw [h]; exact hle
      · rw [h]; exact hall _ (by simp)
      · rw [h]; exact hall _ (by simp)
      · simp at h
        rw [h]; exact hall _ (by simp)
  · obtain ⟨hmem, hge, hall⟩ := hup.foldl_pmax
      [O.mul Rounding.upward.code a.start b.end_,
       O.mul Rounding.upward.code a.end_ b.start,
       O.mul Rounding.upward.code a.end_ b.end_]
      (O.mul Rounding.upward.code a.start b.start)
      (by simp [cornerProducts])
      (by intro z hz; simp [cornerProducts]; simp at hz; tauto)
    rw [Interval.mul_eval]
    refine ⟨?_, ?_⟩
    · show _ ∈ cornerProducts O Rounding.upward a b
      simp only [cornerProducts, List.mem_cons]
      rcases hmem with h | h
      · exact Or.inl h
      · simp at h
        tauto
    · intro w hw
      simp only [cornerProducts, List.mem_cons] at hw
      rcases hw with h | h | h | h
      · rw [h]; exact hge
      · rw [h]; exact hall _ (by simp)
      · rw [h]; exact hall _ (by simp)
      · simp at h
        rw [h]; exact hall _ (by simp)

/-! ## The claims -/

/-- C1 (code_bug evaluation): the claim says that after `Rounding::execute`
returns, the register again holds the mode active immediately before the
call.  The code saves the *success status* (`0`) of `fesetround` in `old` and
"restores" that: evaluated with the register initially `0x0400` (Downward)
and `execute(Upward, body)` for a body that leaves the register alone, the
result of the body is returned but the register finishes at `0x0000` (ToNearest),
not at the pre-call `0x0400`. -/
theorem execute_clobbers_mode :
    (Rounding.upward.execute (fun s => (37, s)) 0x0400).1 = 37 ∧
    (Rounding.upward.execute (fun s => (37, s)) 0x0400).2 = 0x0000 ∧
    (0x0000 : Int) ≠ 0x0400 := by
  refine ⟨rfl, rfl, by decide⟩

/-- C3 counterexample: with `start = NaN`, `end = 0`, `start > end` does not
hold, so the claim says `with_range` returns `Interval{start, end}` without
failing; the `assert!(start <= end)` in the code fails (`NaN <= 0` is false), i.e.
it panics (modelled as `none`). -/
theorem with_range_nan_counterexample :
    Interval.with_range floatOps FloatVal.nan (FloatVal.fin 0) = none ∧
    floatOps.gtb FloatVal.nan (FloatVal.fin 0) = false := by
  decide

/-- C3 amended: `with_range(start, end)` fails exactly when `start <= end`
does *not* hold — that is, when `start > end` and also when the arguments are
incomparable (e.g. NaN) — and returns `Interval{start, end}` exactly when
`start <= end` holds. -/
theorem with_range_iff {α : Type} (O : Ops α) (start end_ : α) :
    (Interval.with_range O start end_ = some ⟨start, end_⟩ ↔ O.leb start end_ = true) ∧
    (Interval.with_range O start end_ = none ↔ O.leb start end_ = false) := by
  unfold Interval.with_range
  by_cases h : O.leb start end_ = true <;> simp [h]

/-- C4: subtraction is componentwise on matching endpoints — for all
intervals `a`, `b` over any numeric instantiation and any initial register
state, `(a - b).start` is `a.start - b.start` computed with the register
holding the Downward mode code, and `(a - b).end` is `a.end - b.end`
computed with the register holding the Upward mode code. -/
theorem sub_componentwise {α : Type} (O : Ops α) (a b : Interval α) (s : FE) :
    (Interval.sub O a b s).1.start = O.sub Rounding.downward.code a.start b.start ∧
    (Interval.sub O a b s).1.end_ = O.sub Rounding.upward.code a.end_ b.end_ :=
  ⟨rfl, rfl⟩

/-- C2 counterexample: `a = [0,0]` and `b = [0,1]` are valid intervals (and on
these integer values `f64` arithmetic is exact under every rounding mode),
yet the componentwise subtraction gives `a - b = [0,-1]`, which violates
`start <= end`. -/
theorem sub_invariant_counterexample :
    Interval.valid intOps ⟨0, 0⟩ ∧ Interval.valid intOps ⟨0, 1⟩ ∧
    (Interval.sub intOps ⟨0, 0⟩ ⟨0, 1⟩ 0).1 = ⟨0, -1⟩ ∧
    intOps.leb (Interval.sub intOps ⟨0, 0⟩ ⟨0, 1⟩ 0).1.start
      (Interval.sub intOps ⟨0, 0⟩ ⟨0, 1⟩ 0).1.end_ = false := by
  decide

/-- C2 amended: over the exact instantiation, every Interval-producing
operation *except subtraction* (and `sin`, which iterates the subtraction
recurrence in its accumulator) preserves `start <= end`: `with_range`,
`with_epsilon` and `exact` only ever return valid intervals, and addition,
negation, multiplication, division and intersection of valid intervals are
valid; subtraction of valid intervals yields a valid interval exactly when
`a.start - b.start <= a.end - b.end`, i.e. when `b` is no wider than `a`. -/
theorem interval_ops_preserve_invariant (a b : Interval ℤ) (s : FE)
    (ha : Interval.valid intOps a) (hb : Interval.valid intOps b) :
    (∀ (st en : ℤ) (iv : Interval ℤ),
      Interval.with_range intOps st en = some iv → Interval.valid intOps iv) ∧
    (∀ (c e : ℤ) (s' : FE) (iv : Interval ℤ),
      Interval.with_epsilon intOps c e s' = some iv → Interval.valid intOps iv) ∧
    (∀ (v : ℤ) (s' : FE) (iv : Interval ℤ),
      Interval.exact intOps v s' = some iv → Interval.valid intOps iv) ∧
    Interval.valid intOps (Interval.add intOps a b s).1 ∧
    Interval.valid intOps (Interval.neg intOps a) ∧
    Interval.valid intOps (Interval.mul intOps a b s).1 ∧
    Interval.valid intOps (Interval.div intOps a b s).1 ∧
    (∀ iv, Interval.intersection intOps a b = some iv → Interval.valid intOps iv) ∧
    (Interval.valid intOps (Interval.sub intOps a b s).1 ↔
      a.start - b.start ≤ a.end_ - b.end_) := by
  have ha' : a.start ≤ a.end_ := intOps_leb.mp ha
  have hb' : b.start ≤ b.end_ := intOps_leb.mp hb
  have hwr : ∀ (st en : ℤ) (iv : Interval ℤ),
      Interval.with_range intOps st en = some iv → Interval.valid intOps iv := by
    intro st en iv h
    unfold Interval.with_range at h
    by_cases hle : intOps.leb st en = true
    · rw [if_pos hle] at h
      injection h with h
      rw [← h]
      exact hle
    · rw [if_neg hle] at h
      exact absurd h (by simp)
  refine ⟨hwr, ?_, ?_, ?_, ?_, ?_, ?_, ?_, ?_⟩
  · intro c e s' iv h
    exact hwr _ _ _ h
  · intro v s' iv h
    exact hwr _ _ _ h
  · unfold Interval.valid
    rw [Interval.add_eval]
    show intOps.leb (a.start + b.start) (a.end_ + b.end_) = true
    rw [intOps_leb]
    omega
  · unfold Interval.valid Interval.neg
    show intOps.leb (-a.end_) (-a.start) = true
    rw [intOps_leb]
    omega
  · unfold Interval.valid
    rw [Interval.mul_eval]
    show intOps.leb
      (List.foldl (fun x y => pmin intOps x y) (a.start * b.start)
        [a.start * b.end_, a.end_ * b.start, a.end_ * b.end_])
      (List.foldl (fun x y => pmax intOps x y) (a.start * b.start)
        [a.start * b.end_, a.end_ * b.start, a.end_ * b.end_]) = true
    rw [intOps_leb]
    calc List.foldl (fun x y => pmin intOps x y) (a.start * b.start)
          [a.start * b.end_, a.end_ * b.start, a.end_ * b.end_]
        ≤ a.start * b.start := foldl_pmin_intOps_le _ _
      _ ≤ List.foldl (fun x y => pmax intOps x y) (a.start * b.start)
          [a.start * b.end_, a.end_ * b.start, a.end_ * b.end_] :=
          foldl_pmax_intOps_ge _ _
  · unfold Interval.valid
    rw [Interval.div_eval]
    show intOps.leb
      (List.foldl (fun x y => pmin intOps x y) (a.start / b.start)
        [a.start / b.end_, a.end_ / b.start, a.end_ / b.end_])
      (List.foldl (fun x y => pmax intOps x y) (a.start / b.start)
        [a.start / b.end_, a.end_ / b.start, a.end_ / b.end_]) = true
    rw [intOps_leb]
    calc List.foldl (fun x y => pmin intOps x y) (a.start / b.start)
          [a.start / b.end_, a.end_ / b.start, a.end_ / b.end_]
        ≤ a.start / b.start := foldl_pmin_intOps_le _ _
      _ ≤ List.foldl (fun x y => pmax intOps x y) (a.start / b.start)
          [a.start / b.end_, a.end_ / b.start, a.end_ / b.end_] :=
          foldl_pmax_intOps_ge _ _
  · intro iv h
    simp only [Interval.intersection] at h
    by_cases hg : intOps.gtb (pmax intOps a.start b.start) (pmin intOps a.end_ b.end_) = true
    · rw [if_pos hg] at h
      exact absurd h (by simp)
    · rw [if_neg hg] at h
      injection h with h
      rw [← h]
      unfold Interval.valid
      show intOps.leb (pmax intOps a.start b.start) (pmin intOps a.end_ b.end_) = true
      rw [intOps_leb]
      have : ¬ (pmin intOps a.end_ b.end_ < pmax intOps a.start b.start) :=
        fun hc => hg (intOps_gtb.mpr hc)
      omega
  · unfold Interval.valid
    rw [Interval.sub_eval]
    show intOps.leb (a.start - b.start) (a.end_ - b.end_) = true ↔
      a.start - b.start ≤ a.end_ - b.end_
    exact intOps_leb

/-- C2 amended, witnessed at `a = [0,1]`, `b = [2,5]`: the hypotheses hold and
(sampling the conclusion) the multiplication result is a valid interval. -/
theorem interval_ops_preserve_invariant_witness :
    Interval.valid intOps (⟨0, 1⟩ : Interval ℤ) ∧
    Interval.valid intOps (⟨2, 5⟩ : Interval ℤ) ∧
    Interval.valid intOps (Interval.mul intOps ⟨0, 1⟩ ⟨2, 5⟩ 0).1 :=
  ⟨by decide, by decide,
    (interval_ops_preserve_invariant ⟨0, 1⟩ ⟨2, 5⟩ 0 (by decide)
      (by decide)).2.2.2.2.2.1⟩

/-- C5 counterexample: `a = [0,0]` and `b = [+∞,+∞]` are valid `f64`
intervals, but all four corner products are `0 * ∞ = NaN`, so the computed
lower bound (NaN) is *not* a minimum of the four corner products: NaN
compares `<=` to nothing, so the claim fails as stated for these valid
inputs. -/
theorem mul_min_counterexample :
    Interval.valid floatOps ⟨FloatVal.fin 0, FloatVal.fin 0⟩ ∧
    Interval.valid floatOps ⟨FloatVal.inf, FloatVal.inf⟩ ∧
    ¬ isMinOf floatOps
      ((Interval.mul floatOps ⟨FloatVal.fin 0, FloatVal.fin 0⟩
        ⟨FloatVal.inf, FloatVal.inf⟩ 0).1.start)
      (cornerProducts floatOps Rounding.downward
        ⟨FloatVal.fin 0, FloatVal.fin 0⟩ ⟨FloatVal.inf, FloatVal.inf⟩) := by
  decide

/-- C5 amended: for all valid intervals `a` and `b` *whose four corner
products (under each rounding direction) are pairwise comparable with
consistent comparisons — in particular, no NaN among them —* the lower bound
of `a * b` is a minimum of the four corner products computed with the
register holding the Downward mode code and the upper bound is a maximum of
the four computed with the register holding the Upward mode code. -/
theorem mul_bounds_minmax {α : Type} (O : Ops α) (a b : Interval α) (s : FE)
    (ha : Interval.valid O a) (hb : Interval.valid O b)
    (hdown : cmpOK O (cornerProducts O Rounding.downward a b))
    (hup : cmpOK O (cornerProducts O Rounding.upward a b)) :
    isMinOf O (Interval.mul O a b s).1.start
      (cornerProducts O Rounding.downward a b) ∧
    isMaxOf O (Interval.mul O a b s).1.end_
      (cornerProducts O Rounding.upward a b) :=
  mul_fold_minmax O a b s hdown hup

/-- C5 amended, witnessed at `a = [1,2]`, `b = [3,4]` over the exact
instantiation: the hypotheses hold concretely and the bounds of `a * b` are a
minimum resp. maximum of the corner products. -/
theorem mul_bounds_minmax_witness :
    Interval.valid intOps (⟨1, 2⟩ : Interval ℤ) ∧
    Interval.valid intOps (⟨3, 4⟩ : Interval ℤ) ∧
    cmpOK intOps (cornerProducts intOps Rounding.downward ⟨1, 2⟩ ⟨3, 4⟩) ∧
    cmpOK intOps (cornerProducts intOps Rounding.upward ⟨1, 2⟩ ⟨3, 4⟩) ∧
    (isMinOf intOps (Interval.mul intOps ⟨1, 2⟩ ⟨3, 4⟩ 0).1.start
      (cornerProducts intOps Rounding.downward ⟨1, 2⟩ ⟨3, 4⟩) ∧
     isMaxOf intOps (Interval.mul intOps ⟨1, 2⟩ ⟨3, 4⟩ 0).1.end_
      (cornerProducts intOps Rounding.upward ⟨1, 2⟩ ⟨3, 4⟩)) :=
  ⟨by decide, by decide, by decide, by decide,
    mul_bounds_minmax intOps ⟨1, 2⟩ ⟨3, 4⟩ 0 (by decide) (by decide)
      (by decide) (by decide)⟩

/-- C9: over the `f64` model, for valid intervals `a` and `b` none of whose
four corner products is NaN, multiplication yields `start <= end`: the lower
bound is a fold-minimum and the upper bound a fold-maximum of the same four
corner products. -/
theorem mul_preserves_invariant_of_nonan (a b : Interval FloatVal) (s : FE)
    (ha : Interval.valid floatOps a) (hb : Interval.valid floatOps b)
    (hnn : ∀ p ∈ cornerProducts floatOps Rounding.downward a b, p ≠ FloatVal.nan) :
    Interval.valid floatOps (Interval.mul floatOps a b s).1 := by
  have hOK : cmpOK floatOps (cornerProducts floatOps Rounding.downward a b) :=
    cmpOK_floatOps_of_nonan hnn
  have hupOK : cmpOK floatOps (cornerProducts floatOps Rounding.upward a b) := hOK
  obtain ⟨⟨_, hminAll⟩, ⟨hmaxMem, _⟩⟩ := mul_fold_minmax floatOps a b s hOK hupOK
  have hLL : cornerProducts floatOps Rounding.upward a b =
      cornerProducts floatOps Rounding.downward a b := rfl
  rw [hLL] at hmaxMem
  exact hminAll _ hmaxMem

/-- C9, witnessed at `a = [1,2]`, `b = [3,4]`: valid intervals without NaN
corner products whose product `[3,8]` is valid. -/
theorem mul_preserves_invariant_of_nonan_witness :
    Interval.valid floatOps ⟨FloatVal.fin 1, FloatVal.fin 2⟩ ∧
    Interval.valid floatOps ⟨FloatVal.fin 3, FloatVal.fin 4⟩ ∧
    (∀ p ∈ cornerProducts floatOps Rounding.downward
      ⟨FloatVal.fin 1, FloatVal.fin 2⟩ ⟨FloatVal.fin 3, FloatVal.fin 4⟩,
      p ≠ FloatVal.nan) ∧
    Interval.valid floatOps
      (Interval.mul floatOps ⟨FloatVal.fin 1, FloatVal.fin 2⟩
        ⟨FloatVal.fin 3, FloatVal.fin 4⟩ 0).1 :=
  ⟨by decide, by decide, by decide,
    mul_preserves_invariant_of_nonan ⟨FloatVal.fin 1, FloatVal.fin 2⟩
      ⟨FloatVal.fin 3, FloatVal.fin 4⟩ 0 (by decide) (by decide) (by decide)⟩

/-- C7: over the `f64` model, for valid intervals `a` and `b` intersection is
commutative, it is `None` exactly when `max(a.start, b.start) >
min(a.end, b.end)` (disjoint), and any returned interval is
`[max(a.start, b.start), min(a.end, b.end)]`. -/
theorem intersection_comm_spec (a b : Interval FloatVal)
    (ha : Interval.valid floatOps a) (hb : Interval.valid floatOps b) :
    Interval.intersection floatOps a b = Interval.intersection floatOps b a ∧
    (Interval.intersection floatOps a b = none ↔
      floatOps.gtb (pmax floatOps a.start b.start)
        (pmin floatOps a.end_ b.end_) = true) ∧
    ∀ iv, Interval.intersection floatOps a b = some iv →
      iv = ⟨pmax floatOps a.start b.start, pmin floatOps a.end_ b.end_⟩ := by
  obtain ⟨hans, hane⟩ := FloatVal.le_nonan (fleb_iff.mp ha)
  obtain ⟨hbns, hbne⟩ := FloatVal.le_nonan (fleb_iff.mp hb)
  have hmax : pmax floatOps b.start a.start = pmax floatOps a.start b.start :=
    pmax_comm_floatOps hbns hans
  have hmin : pmin floatOps b.end_ a.end_ = pmin floatOps a.end_ b.end_ :=
    pmin_comm_floatOps hbne hane
  refine ⟨?_, ?_, ?_⟩
  · simp only [Interval.intersection]
    rw [hmax, hmin]
  · simp only [Interval.intersection]
    by_cases hg : floatOps.gtb (pmax floatOps a.start b.start)
        (pmin floatOps a.end_ b.end_) = true
    · simp [hg]
    · simp [hg]
  · intro iv h
    simp only [Interval.intersection] at h
    by_cases hg : floatOps.gtb (pmax floatOps a.start b.start)
        (pmin floatOps a.end_ b.end_) = true
    · rw [if_pos hg] at h
      exact absurd h (by simp)
    · rw [if_neg hg] at h
      injection h with h
      exact h.symm

/-- C7, witnessed at `a = [1,2]`, `b = [3,4]` (valid; disjoint, so both
intersections are `None` and the `None` condition holds). -/
theorem intersection_comm_spec_witness :
    Interval.valid floatOps ⟨FloatVal.fin 1, FloatVal.fin 2⟩ ∧
    Interval.valid floatOps ⟨FloatVal.fin 3, FloatVal.fin 4⟩ ∧
    (Interval.intersection floatOps ⟨FloatVal.fin 1, FloatVal.fin 2⟩
        ⟨FloatVal.fin 3, FloatVal.fin 4⟩ =
      Interval.intersection floatOps ⟨FloatVal.fin 3, FloatVal.fin 4⟩
        ⟨FloatVal.fin 1, FloatVal.fin 2⟩) :=
  ⟨by decide, by decide,
    (intersection_comm_spec ⟨FloatVal.fin 1, FloatVal.fin 2⟩
      ⟨FloatVal.fin 3, FloatVal.fin 4⟩ (by decide) (by decide)).1⟩

/-- C8: over the `f64` model, comparing a valid interval against a scalar `v`
yields `Greater` exactly when `v < start`, `Less` exactly when `v > end`,
`Equal` exactly when `start <= v <= end` (`contains`), and no ordering in
every remaining case — which arises only when `v` is incomparable with the
bounds, i.e. only for `v = NaN`. -/
theorem cmpScalar_spec (iv : Interval FloatVal) (v : FloatVal)
    (h : Interval.valid floatOps iv) :
    (Interval.cmpScalar floatOps iv v = some Ordering.gt ↔
      floatOps.ltb v iv.start = true) ∧
    (Interval.cmpScalar floatOps iv v = some Ordering.lt ↔
      floatOps.gtb v iv.end_ = true) ∧
    (Interval.cmpScalar floatOps iv v = some Ordering.eq ↔
      Interval.contains floatOps iv v = true) ∧
    (Interval.cmpScalar floatOps iv v = none ↔
      (floatOps.ltb v iv.start = false ∧ floatOps.gtb v iv.end_ = false ∧
        Interval.contains floatOps iv v = false)) ∧
    (Interval.cmpScalar floatOps iv v = none → v = FloatVal.nan) := by
  have hse : FloatVal.le iv.start iv.end_ := fleb_iff.mp h
  obtain ⟨hsn, hen⟩ := FloatVal.le_nonan hse
  by_cases h1 : floatOps.ltb v iv.start = true
  · have hv : FloatVal.lt v iv.start := fltb_iff.mp h1
    have hg : floatOps.gtb v iv.end_ = false := by
      rw [← Bool.not_eq_true, fgtb_iff]
      exact FloatVal.not_lt_of_le (FloatVal.le_of_lt (FloatVal.lt_of_lt_of_le hv hse))
    have hco : Interval.contains floatOps iv v = false := by
      rw [← Bool.not_eq_true, fcontains_iff]
      rintro ⟨hc1, _⟩
      exact FloatVal.not_lt_of_le hc1 hv
    simp [Interval.cmpScalar, h1, hg, hco]
  · by_cases h2 : floatOps.gtb v iv.end_ = true
    · have hv : FloatVal.lt iv.end_ v := fgtb_iff.mp h2
      have hco : Interval.contains floatOps iv v = false := by
        rw [← Bool.not_eq_true, fcontains_iff]
        rintro ⟨_, hc2⟩
        exact FloatVal.not_lt_of_le hc2 hv
      simp [Interval.cmpScalar, h1, h2, hco]
    · by_cases h3 : Interval.contains floatOps iv v = true
      · simp [Interval.cmpScalar, h1, h2, h3]
      · have hvn : v = FloatVal.nan := by
          by_contra hvn
          have hnl1 : ¬ FloatVal.lt v iv.start := fun hc => h1 (fltb_iff.mpr hc)
          have hnl2 : ¬ FloatVal.lt iv.end_ v := fun hc => h2 (fgtb_iff.mpr hc)
          have hnc : ¬ (FloatVal.le iv.start v ∧ FloatVal.le v iv.end_) :=
            fun hc => h3 (fcontains_iff.mpr hc)
          rcases FloatVal.le_total_nonan hsn hvn with hsv | hvs
          · rcases FloatVal.le_total_nonan hvn hen with hve | hev
            · exact hnc ⟨hsv, hve⟩
            · have : iv.end_ = v := FloatVal.eq_of_le_not_lt hev hnl2
              refine hnc ⟨hsv, ?_⟩
              rw [← this]
              exact FloatVal.le_refl_nonan hen
          · have : v = iv.start := FloatVal.eq_of_le_not_lt hvs hnl1
            refine hnc ⟨?_, ?_⟩
            · rw [this]
              exact FloatVal.le_refl_nonan hsn
            · rw [this]
              exact hse
        subst hvn
        have h1' : floatOps.ltb FloatVal.nan iv.start = false := by simpa using h1
        have h2' : floatOps.gtb FloatVal.nan iv.end_ = false := by simpa using h2
        have h3' : Interval.contains floatOps iv FloatVal.nan = false := by simpa using h3
        simp [Interval.cmpScalar, h1', h2', h3']

/-- C8, witnessed at the interval `[1,2]` and scalar `3` (which compares
`Less`). -/
theorem cmpScalar_spec_witness :
    Interval.valid floatOps ⟨FloatVal.fin 1, FloatVal.fin 2⟩ ∧
    (Interval.cmpScalar floatOps ⟨FloatVal.fin 1, FloatVal.fin 2⟩
        (FloatVal.fin 3) = some Ordering.lt ↔
      floatOps.gtb (FloatVal.fin 3) (FloatVal.fin 2) = true) :=
  ⟨by decide,
    (cmpScalar_spec ⟨FloatVal.fin 1, FloatVal.fin 2⟩ (FloatVal.fin 3)
      (by decide)).2.1⟩

/-- C6: the implemented sine agrees with the step-by-step spec description
(§4.5): compute `x2 = x * x`, start the accumulator at `x`, loop `i` from 1
inclusive to 500,000 exclusive setting `factor = x2 / exact(2*i*(2*i+1))` and
updating `acc` to `acc * factor + acc` for even `i` and `acc * factor - acc`
for odd `i`, then clamp both bounds independently into `[-1, 1]` by
`bound.max(-1).min(1)` and return — for every numeric instantiation, input
interval and initial register state. -/
theorem sin_eq_sinSpec {α : Type} (O : Ops α) (x : Interval α) (s : FE) :
    Interval.sin O x s = Interval.sinSpec O x s := by
  unfold Interval.sin Interval.sinSpec
  rw [range_fold_eq_sinSpecLoop]

/-- C10: for every input interval over the `f64` model (valid or not) and
every initial register state, `sin` returns a result, and both bounds of the
returned interval lie in `[-1, 1]`: the final clamp `max(-1)` then `min(1)`
maps every value — finite, infinite or NaN — into that range, because the
NaN-ignoring `max`/`min` replace a NaN operand by the finite clamp bound. -/
theorem sin_output_clamped (x : Interval FloatVal) (s : FE) :
    ∃ (r : Interval FloatVal) (s' : FE),
      Interval.sin floatOps x s = some (r, s') ∧
      floatOps.leb (FloatVal.fin (-1)) r.start = true ∧
      floatOps.leb r.start (FloatVal.fin 1) = true ∧
      floatOps.leb (FloatVal.fin (-1)) r.end_ = true ∧
      floatOps.leb r.end_ (FloatVal.fin 1) = true := by
  unfold Interval.sin
  obtain ⟨out, hout⟩ := foldl_sinStep_floatOps_some (Interval.mul floatOps x x s).1
    (List.range' 1 499999) (x, (Interval.mul floatOps x x s).2)
  rw [hout]
  obtain ⟨ret, s'⟩ := out
  refine ⟨_, s', rfl, ?_, ?_, ?_, ?_⟩
  · exact fleb_iff.mpr (clamp_mem ret.start).1
  · exact fleb_iff.mpr (clamp_mem ret.start).2
  · exact fleb_iff.mpr (clamp_mem ret.end_).1
  · exact fleb_iff.mpr (clamp_mem ret.end_).2

end Inter
